import Mathlib

/-!
# Verification of the TSP shotgun hill-climbing solver

Shallow embedding of the core of the `TSP-Parallel` repository
(`TSPSolver-linear.cpp`, `src/main_tsp.cpp`, `src/main_tsp_p.cpp`).
The C++ `double` cost domain is modelled as an arbitrary linearly
ordered additive commutative monoid `α` (the code only adds and compares
costs), so every theorem holds in particular over the rationals and the
reals; concrete test instances use `ℤ`.  The distance matrix is a total
function `ℕ → ℕ → α` (the code only ever indexes it with valid tour
entries).  The mt19937 random source is modelled abstractly:
`generateRandomTour` takes the suffix-shuffling function as a parameter,
and the shotgun drivers take the per-run sequence of initial tours as a
parameter, since the actual values drawn from `std::mt19937` /
`std::shuffle` are a property of the C++ standard library, not of this
repository.
-/

namespace TSP

variable {α : Type} [LinearOrderedAddCommMonoid α]

/-- A tour is a list of node indices, as in `std::vector<int>` (indices
are non-negative throughout). -/
abbrev Tour := List Nat

/-- Embedding of `TSPSolver::calculateTourLength`: the loop
`for i in 0..size-1: length += M[tour[i]][tour[(i+1) % size]]`
accumulated into a sum. -/
def calculateTourLength (M : Nat → Nat → α) (tour : Tour) : α :=
  ((List.range tour.length).map
    (fun i => M (tour.getD i 0) (tour.getD ((i + 1) % tour.length) 0))).sum

/-- Embedding of `TSPSolver::twoOptSwap`: copy the tour and
`std::reverse(newTour.begin() + i, newTour.begin() + j + 1)`, i.e.
reverse the positions `i..j` inclusive. -/
def twoOptSwap (tour : Tour) (i j : Nat) : Tour :=
  tour.take i ++ ((tour.take (j + 1)).drop i).reverse ++ tour.drop (j + 1)

/-- The index pairs scanned by the nested loops of `TSPSolver::hillClimb`,
in their scanning order: `i` from `1` while `i < n - 1`, and for each `i`,
`j` from `i + 1` while `j < n`. -/
def candidatePairs (n : Nat) : List (Nat × Nat) :=
  (List.range' 1 (n - 2)).flatMap
    (fun i => (List.range' (i + 1) (n - (i + 1))).map (fun j => (i, j)))

/-- The first-improvement scan of one `hillClimb` iteration: the first
pair `(i, j)` in scanning order whose reversed-segment tour is strictly
shorter than the current length (the code breaks out of both loops at
that pair). -/
def findImprovement (M : Nat → Nat → α) (tour : Tour) (len : α) :
    Option (Nat × Nat) :=
  (candidatePairs tour.length).find?
    (fun p => decide (calculateTourLength M (twoOptSwap tour p.1 p.2) < len))

/-- One iteration of the `hillClimb` outer loop: `none` when no improving
move exists (the `improvement` flag stays `false`), otherwise the updated
`(currentTour, currentLength)` state. -/
def hillClimbStep (M : Nat → Nat → α) (st : Tour × α) : Option (Tour × α) :=
  match findImprovement M st.1 st.2 with
  | none => none
  | some (i, j) =>
      let t := twoOptSwap st.1 i j
      some (t, calculateTourLength M t)

/-- The iteration loop of `TSPSolver::hillClimb`:
`for iter in 0..numIterations-1 { scan; if !improvement break }`.
The `Bool` records the spec's terminal state: `true` when the loop ended
because a full scan found no improving move (CONVERGED), `false` when the
iteration cap was exhausted while still improving. -/
def hillClimbLoop (M : Nat → Nat → α) : Nat → Tour × α → (Tour × α) × Bool
  | 0, st => (st, false)
  | k + 1, st =>
      match hillClimbStep M st with
      | none => (st, true)
      | some st' => hillClimbLoop M k st'

/-- Embedding of `TSPSolver::generateRandomTour`: `std::iota` fills the
tour with `0, 1, …, n-1` and `std::shuffle(tour.begin() + 1, tour.end())`
rearranges everything after position 0.  The shuffle itself is a
parameter; the C++ standard only guarantees that it permutes the range. -/
def generateRandomTour (shuffle : List Nat → List Nat) (n : Nat) : Tour :=
  match List.range n with
  | [] => []
  | x :: rest => x :: shuffle rest

/-- One full `TSPSolver::hillClimb` run from a given initial tour:
`currentLength = calculateTourLength(currentTour)` then the iteration
loop with cap `K`. -/
def hillClimbRun (M : Nat → Nat → α) (K : Nat) (t : Tour) : (Tour × α) × Bool :=
  hillClimbLoop M K (t, calculateTourLength M t)

/-- The `(tour, length)` results of the `numRestarts` hill-climb runs of
`shotgunHillClimbing`, where `tours r` is the initial random tour drawn
for run `r`. -/
def runResults (M : Nat → Nat → α) (tours : Nat → Tour) (K R : Nat) :
    List (Tour × α) :=
  (List.range R).map (fun r => (hillClimbRun M K (tours r)).1)

/-- The reduction step of `shotgunHillClimbing`:
`if (currentLength < bestLength) { bestTour = currentTour; … }`.
The accumulator `none` models the initial `bestLength = DBL_MAX`
(greater than every actual tour length). -/
def shotgunStep (best : Option (Tour × α)) (r : Tour × α) : Option (Tour × α) :=
  match best with
  | none => some r
  | some b => if r.2 < b.2 then some r else some b

/-- Embedding of `TSPSolver::shotgunHillClimbing` (sequential): run
`R` hill climbs and keep the strictly best result, first-found on ties. -/
def shotgunHillClimbing (M : Nat → Nat → α) (tours : Nat → Tour) (K R : Nat) :
    Option (Tour × α) :=
  (runResults M tours K R).foldl shotgunStep none

/-- The thread-local phase of `shotgunHillClimbingParallel`: thread `t`
seeds `std::mt19937 localGen(baseSeed_ + threadId)` and folds its
assigned restarts (it is given `count` of them; the loop body never reads
the restart index) with the same strict-improvement reduction.
`streams s r` is the initial tour produced by the `r`-th
`generateRandomTour` call on a generator seeded `s`. -/
def threadLocalBest (M : Nat → Nat → α) (streams : Nat → Nat → Tour)
    (seed K t count : Nat) : Option (Tour × α) :=
  ((List.range count).map
    (fun r => (hillClimbRun M K (streams (seed + t) r)).1)).foldl shotgunStep none

/-- The `#pragma omp critical` merge of `shotgunHillClimbingParallel`: a
thread whose `localBestLength` is still `DBL_MAX` (it processed no
restart) does not replace the shared best. -/
def mergeStep (best : Option (Tour × α)) (localBest : Option (Tour × α)) :
    Option (Tour × α) :=
  match localBest with
  | none => best
  | some l =>
      match best with
      | none => some l
      | some b => if l.2 < b.2 then some l else some b

/-- Embedding of `TSPSolver::shotgunHillClimbingParallel`: `counts t` is
the number of restarts the OpenMP `for` work-sharing assigns to thread
`t` (the schedule is implementation-defined, so it is a parameter);
thread-local bests are merged in the critical section. -/
def shotgunHillClimbingParallel (M : Nat → Nat → α)
    (streams : Nat → Nat → Tour) (seed K : Nat) (counts : List Nat) :
    Option (Tour × α) :=
  ((List.range counts.length).map
    (fun t => threadLocalBest M streams seed K t (counts.getD t 0))).foldl
      mergeStep none

/-- The strict lexicographic order on scanned index pairs: `(i, j)` is
scanned strictly before `(i', j')`. -/
def pairLexLT (p q : Nat × Nat) : Prop :=
  p.1 < q.1 ∨ (p.1 = q.1 ∧ p.2 < q.2)

/-- A concrete asymmetric 3-node distance matrix (entry `[i][j]` is the
cost from `i` to `j`), used for concrete instances of the theorems. -/
def exMatrix : Nat → Nat → ℤ := fun i j =>
  (([[0, 1, 10], [10, 0, 1], [1, 10, 0]] : List (List ℤ)).getD i []).getD j 0

/-- A concrete admissible random-stream behavior for 3-node instances:
every drawn tour is a permutation of `{0, 1, 2}` with node 0 fixed, as
`generateRandomTour` guarantees; the second tour drawn from the
generator seeded 7 differs from the first tour drawn from the generator
seeded 8. -/
def exStreams : Nat → Nat → Tour := fun s r =>
  if s = 7 ∧ r = 1 then [0, 1, 2] else [0, 2, 1]

end TSP

namespace TSP

variable {α : Type} [LinearOrderedAddCommMonoid α]

/-- The accumulation loop of `calculateTourLength` as a finite sum. -/
theorem list_sum_map_range (n : Nat) (f : Nat → α) :
    ((List.range n).map f).sum = ∑ k ∈ Finset.range n, f k := by
  induction n with
  | zero => simp
  | succ m ih => simp [List.range_succ, Finset.sum_range_succ, ih]

/-- C1: for every nonempty tour over a distance model, `calculateTourLength`
returns the sum of exactly N edge costs `M (tour[k]) (tour[(k+1) % N])` for
k in 0..N-1: the open path from the first to the last element plus the
closing wrap-around edge from the last element back to the first. -/
theorem calculateTourLength_spec (M : Nat → Nat → α) (tour : Tour)
    (h : tour ≠ []) :
    calculateTourLength M tour
      = ∑ k ∈ Finset.range tour.length,
          M (tour.getD k 0) (tour.getD ((k + 1) % tour.length) 0)
    ∧ calculateTourLength M tour
      = (∑ k ∈ Finset.range (tour.length - 1),
          M (tour.getD k 0) (tour.getD (k + 1) 0))
        + M (tour.getD (tour.length - 1) 0) (tour.getD 0 0) := by
  have hsum := list_sum_map_range tour.length
    (fun i => M (tour.getD i 0) (tour.getD ((i + 1) % tour.length) 0))
  have hn : tour.length ≠ 0 := by
    intro h0
    exact h (List.length_eq_zero.mp h0)
  refine ⟨hsum, ?_⟩
  rw [calculateTourLength, hsum]
  obtain ⟨m, hm⟩ : ∃ m, tour.length = m + 1 := ⟨tour.length - 1, by omega⟩
  rw [hm, Finset.sum_range_succ, Nat.add_sub_cancel]
  congr 1
  · apply Finset.sum_congr rfl
    intro k hk
    have hk2 : k < m := Finset.mem_range.mp hk
    rw [Nat.mod_eq_of_lt (by omega)]
  · rw [Nat.mod_self]

end TSP

namespace TSP

variable {α : Type} [LinearOrderedAddCommMonoid α]

theorem twoOptSwap_length (tour : Tour) (i j : Nat) (hij : i ≤ j)
    (hj : j < tour.length) : (twoOptSwap tour i j).length = tour.length := by
  simp only [twoOptSwap, List.length_append, List.length_take,
    List.length_reverse, List.length_drop]
  omega

theorem twoOptSwap_getElem? (tour : Tour) (i j k : Nat) (hij : i ≤ j)
    (hj : j < tour.length) :
    (twoOptSwap tour i j)[k]? =
      if i ≤ k ∧ k ≤ j then tour[i + j - k]? else tour[k]? := by
  have hA : (tour.take i).length = i := by
    simp only [List.length_take]; omega
  have hB : ((tour.take (j + 1)).drop i).reverse.length = j + 1 - i := by
    simp only [List.length_reverse, List.length_drop, List.length_take]; omega
  have hAB : (tour.take i ++ ((tour.take (j + 1)).drop i).reverse).length
      = j + 1 := by
    rw [List.length_append, hA, hB]; omega
  rw [twoOptSwap]
  by_cases hk : k < i
  · rw [if_neg (by omega), List.getElem?_append_left (by rw [hAB]; omega),
      List.getElem?_append_left (by rw [hA]; omega),
      List.getElem?_take, if_pos (by omega)]
  · by_cases hk2 : k ≤ j
    · rw [if_pos (by omega), List.getElem?_append_left (by rw [hAB]; omega),
        List.getElem?_append_right (by rw [hA]; omega), hA,
        List.getElem?_reverse (by rw [List.length_drop, List.length_take]; omega)]
      have hidx : ((tour.take (j + 1)).drop i).length - 1 - (k - i) = j - k := by
        simp only [List.length_drop, List.length_take]; omega
      rw [hidx, List.getElem?_drop, List.getElem?_take, if_pos (by omega)]
      congr 1
      omega
    · rw [if_neg (by omega), List.getElem?_append_right (by rw [hAB]; omega), hAB,
        List.getElem?_drop]
      congr 1
      omega

/-- C2: for every tour and indices 1 ≤ i < j ≤ N-1, `twoOptSwap` returns a
tour of the same length that is unchanged at every position outside [i, j]
(position 0 included), carries the segment [i, j] reversed
(`new[k] = old[i + j - k]`), and therefore replaces exactly the edges
`(tour[i-1], tour[i])` and `(tour[j], tour[(j+1) % N])` by
`(tour[i-1], tour[j])` and `(tour[i], tour[(j+1) % N])`, all other edges of
the cycle being preserved. -/
theorem twoOptSwap_spec (tour : Tour) (i j : Nat) (h1 : 1 ≤ i) (h2 : i < j)
    (h3 : j < tour.length) :
    (twoOptSwap tour i j).length = tour.length
    ∧ (∀ k, k < i ∨ j < k → (twoOptSwap tour i j).getD k 0 = tour.getD k 0)
    ∧ (∀ k, i ≤ k → k ≤ j →
        (twoOptSwap tour i j).getD k 0 = tour.getD (i + j - k) 0)
    ∧ (twoOptSwap tour i j).getD (i - 1) 0 = tour.getD (i - 1) 0
    ∧ (twoOptSwap tour i j).getD i 0 = tour.getD j 0
    ∧ (twoOptSwap tour i j).getD j 0 = tour.getD i 0
    ∧ (twoOptSwap tour i j).getD ((j + 1) % tour.length) 0
        = tour.getD ((j + 1) % tour.length) 0 := by
  have key : ∀ k, (twoOptSwap tour i j).getD k 0 =
      if i ≤ k ∧ k ≤ j then tour.getD (i + j - k) 0 else tour.getD k 0 := by
    intro k
    rw [List.getD_eq_getElem?_getD, twoOptSwap_getElem? tour i j k (by omega) h3]
    by_cases h : i ≤ k ∧ k ≤ j
    · rw [if_pos h, if_pos h, List.getD_eq_getElem?_getD]
    · rw [if_neg h, if_neg h, List.getD_eq_getElem?_getD]
  refine ⟨twoOptSwap_length tour i j (by omega) h3, ?_, ?_, ?_, ?_, ?_, ?_⟩
  · intro k hk
    rw [key k, if_neg (by omega)]
  · intro k hk1 hk2
    rw [key k, if_pos ⟨hk1, hk2⟩]
  · rw [key (i - 1), if_neg (by omega)]
  · rw [key i, if_pos ⟨le_refl i, le_of_lt h2⟩]
    congr 1
    omega
  · rw [key j, if_pos ⟨le_of_lt h2, le_refl j⟩]
    congr 1
    omega
  · by_cases hj1 : j + 1 < tour.length
    · rw [Nat.mod_eq_of_lt hj1, key (j + 1), if_neg (by omega)]
    · have : j + 1 = tour.length := by omega
      rw [this, Nat.mod_self, key 0, if_neg (by omega)]

end TSP

namespace TSP

variable {α : Type} [LinearOrderedAddCommMonoid α]

/-- On a list sorted by an asymmetric relation, `find?` returns exactly
the unique minimal element satisfying the predicate. -/
theorem find?_sorted_char {β : Type} (R : β → β → Prop)
    (hasymm : ∀ x y, R x y → R y x → False) (p : β → Bool) :
    ∀ (l : List β), List.Pairwise R l → ∀ a,
      (l.find? p = some a ↔
        a ∈ l ∧ p a = true ∧ ∀ b ∈ l, p b = true → a = b ∨ R a b) := by
  intro l
  induction l with
  | nil => intro _ a; simp
  | cons x xs ih =>
    intro hpw a
    have hpw' := (List.pairwise_cons.mp hpw).2
    have hxall := (List.pairwise_cons.mp hpw).1
    by_cases hx : p x = true
    · rw [List.find?_cons_of_pos _ hx]
      constructor
      · intro h
        injection h with h
        subst h
        exact ⟨List.mem_cons_self _ _, hx, fun b hb _ => by
          rcases List.mem_cons.mp hb with h | h
          · exact Or.inl h.symm
          · exact Or.inr (hxall b h)⟩
      · rintro ⟨hmem, hpa, hmin⟩
        rcases List.mem_cons.mp hmem with h | h
        · rw [h]
        · rcases hmin x (List.mem_cons_self _ _) hx with h' | h'
          · rw [h']
          · exact absurd (hxall a h) (fun hr => hasymm a x h' hr)
    · rw [List.find?_cons_of_neg _ hx]
      rw [ih hpw' a]
      constructor
      · rintro ⟨hmem, hpa, hmin⟩
        refine ⟨List.mem_cons_of_mem _ hmem, hpa, fun b hb hpb => ?_⟩
        rcases List.mem_cons.mp hb with h | h
        · subst h; exact absurd hpb hx
        · exact hmin b h hpb
      · rintro ⟨hmem, hpa, hmin⟩
        rcases List.mem_cons.mp hmem with h | h
        · subst h; exact absurd hpa hx
        · exact ⟨h, hpa, fun b hb hpb => hmin b (List.mem_cons_of_mem _ hb) hpb⟩

theorem mem_candidatePairs (n i j : Nat) :
    (i, j) ∈ candidatePairs n ↔ 1 ≤ i ∧ i < j ∧ j < n := by
  simp only [candidatePairs, List.mem_flatMap, List.mem_map, List.mem_range'_1]
  constructor
  · rintro ⟨i', ⟨hi1, hi2⟩, j', ⟨hj1, hj2⟩, heq⟩
    injection heq with e1 e2
    subst e1; subst e2
    omega
  · rintro ⟨h1, h2, h3⟩
    exact ⟨i, ⟨h1, by omega⟩, j, ⟨by omega, by omega⟩, rfl⟩

theorem pairwise_candidatePairs (n : Nat) :
    List.Pairwise pairLexLT (candidatePairs n) := by
  rw [candidatePairs, List.pairwise_flatMap]
  constructor
  · intro i _
    rw [List.pairwise_map]
    exact (List.pairwise_lt_range' _ _).imp (fun h => Or.inr ⟨rfl, h⟩)
  · have := List.pairwise_lt_range' 1 (n - 2) 1
    refine this.imp ?_
    intro a b hab
    intro x hx y hy
    rcases List.mem_map.mp hx with ⟨ja, _, rfl⟩
    rcases List.mem_map.mp hy with ⟨jb, _, rfl⟩
    exact Or.inl hab

theorem pairLexLT_asymm : ∀ p q : Nat × Nat,
    pairLexLT p q → pairLexLT q p → False := by
  rintro ⟨a, b⟩ ⟨c, d⟩ h1 h2
  rcases h1 with h1 | ⟨h1, h1'⟩ <;> rcases h2 with h2 | ⟨h2, h2'⟩ <;> omega

/-- C3: the neighborhood scan of one hill-climb iteration succeeds with
`(i, j)` exactly when `(i, j)` is a valid pair (1 ≤ i < j ≤ N-1) whose
reversed-segment tour is strictly shorter than the current length and
which is lexicographically least among all such improving pairs — the
first-improvement policy over `i` from 1 to N-2 and, for each `i`, `j`
from i+1 to N-1, stopping at the first hit — and the iteration applies
exactly the move found. -/
theorem findImprovement_spec (M : Nat → Nat → α) (tour : Tour) (len : α)
    (i j : Nat) :
    (findImprovement M tour len = some (i, j) ↔
      (1 ≤ i ∧ i < j ∧ j < tour.length
       ∧ calculateTourLength M (twoOptSwap tour i j) < len
       ∧ ∀ i' j', 1 ≤ i' → i' < j' → j' < tour.length →
           calculateTourLength M (twoOptSwap tour i' j') < len →
           ((i, j) = (i', j') ∨ i < i' ∨ (i = i' ∧ j < j'))))
    ∧ hillClimbStep M (tour, len)
        = Option.map (fun p => (twoOptSwap tour p.1 p.2,
            calculateTourLength M (twoOptSwap tour p.1 p.2)))
          (findImprovement M tour len) := by
  constructor
  · rw [findImprovement,
      find?_sorted_char pairLexLT pairLexLT_asymm _ _
        (pairwise_candidatePairs tour.length) (i, j)]
    constructor
    · rintro ⟨hmem, hp, hmin⟩
      have hm := (mem_candidatePairs _ _ _).mp hmem
      rw [decide_eq_true_eq] at hp
      refine ⟨hm.1, hm.2.1, hm.2.2, hp, fun i' j' h1 h2 h3 himp => ?_⟩
      have := hmin (i', j') ((mem_candidatePairs _ _ _).mpr ⟨h1, h2, h3⟩)
        (by rw [decide_eq_true_eq]; exact himp)
      rcases this with h | h
      · exact Or.inl h
      · rcases h with h | ⟨h, h'⟩
        · exact Or.inr (Or.inl h)
        · exact Or.inr (Or.inr ⟨h, h'⟩)
    · rintro ⟨h1, h2, h3, himp, hmin⟩
      refine ⟨(mem_candidatePairs _ _ _).mpr ⟨h1, h2, h3⟩,
        by rw [decide_eq_true_eq]; exact himp, ?_⟩
      rintro ⟨i', j'⟩ hmem' hp'
      have hm' := (mem_candidatePairs _ _ _).mp hmem'
      rw [decide_eq_true_eq] at hp'
      rcases hmin i' j' hm'.1 hm'.2.1 hm'.2.2 hp' with h | h | h
      · exact Or.inl h
      · exact Or.inr (Or.inl h)
      · exact Or.inr (Or.inr h)
  · rw [hillClimbStep]
    cases h : findImprovement M tour len with
    | none => rfl
    | some p => cases p; rfl

end TSP

namespace TSP

variable {α : Type} [LinearOrderedAddCommMonoid α]

/-- A successful scan returns a valid, strictly improving pair. -/
theorem findImprovement_some_valid (M : Nat → Nat → α) (tour : Tour) (len : α)
    (i j : Nat) (h : findImprovement M tour len = some (i, j)) :
    1 ≤ i ∧ i < j ∧ j < tour.length
    ∧ calculateTourLength M (twoOptSwap tour i j) < len := by
  have hmem := List.mem_of_find?_eq_some h
  have hp := List.find?_some h
  rw [decide_eq_true_eq] at hp
  have hm := (mem_candidatePairs tour.length i j).mp hmem
  exact ⟨hm.1, hm.2.1, hm.2.2, hp⟩

/-- A failed scan means no valid pair improves. -/
theorem findImprovement_none_valid (M : Nat → Nat → α) (tour : Tour) (len : α)
    (h : findImprovement M tour len = none) :
    ∀ i j, 1 ≤ i → i < j → j < tour.length →
      ¬ calculateTourLength M (twoOptSwap tour i j) < len := by
  intro i j h1 h2 h3
  have := List.find?_eq_none.mp h (i, j)
    ((mem_candidatePairs tour.length i j).mpr ⟨h1, h2, h3⟩)
  rw [decide_eq_true_eq] at this
  exact this

theorem hillClimbStep_none_iff (M : Nat → Nat → α) (st : Tour × α) :
    hillClimbStep M st = none ↔ findImprovement M st.1 st.2 = none := by
  rw [hillClimbStep]
  cases h : findImprovement M st.1 st.2 with
  | none => simp
  | some p => cases p; simp

theorem hillClimbStep_some_char (M : Nat → Nat → α) (st st' : Tour × α)
    (h : hillClimbStep M st = some st') :
    ∃ i j, findImprovement M st.1 st.2 = some (i, j)
      ∧ st' = (twoOptSwap st.1 i j,
          calculateTourLength M (twoOptSwap st.1 i j)) := by
  rw [hillClimbStep] at h
  cases hf : findImprovement M st.1 st.2 with
  | none => rw [hf] at h; exact absurd h (by simp)
  | some p =>
      cases p with
      | mk i j =>
          rw [hf] at h
          injection h with h
          exact ⟨i, j, rfl, h.symm⟩

/-- The `currentLength == calculateTourLength(currentTour)` invariant of
the hill-climb loop. -/
theorem hillClimbLoop_consistent (M : Nat → Nat → α) :
    ∀ (K : Nat) (st : Tour × α), st.2 = calculateTourLength M st.1 →
      (hillClimbLoop M K st).1.2
        = calculateTourLength M (hillClimbLoop M K st).1.1 := by
  intro K
  induction K with
  | zero => intro st h; exact h
  | succ k ih =>
      intro st h
      rw [hillClimbLoop]
      cases hs : hillClimbStep M st with
      | none => exact h
      | some st' =>
          obtain ⟨i, j, _, hst'⟩ := hillClimbStep_some_char M st st' hs
          exact ih st' (by rw [hst'])

/-- C4: when a hill-climb run terminates by convergence (a full pass found
no improving move; flag `true`) rather than by exhausting the iteration
cap, the returned tour is a 2-opt local optimum: no valid pair
1 ≤ i < j ≤ N-1 strictly decreases the tour length. -/
theorem hillClimb_converged_localOpt (M : Nat → Nat → α) (K : Nat)
    (st : Tour × α) (hlen : st.2 = calculateTourLength M st.1)
    (hconv : (hillClimbLoop M K st).2 = true) :
    ∀ i j, 1 ≤ i → i < j → j < (hillClimbLoop M K st).1.1.length →
      ¬ calculateTourLength M (twoOptSwap (hillClimbLoop M K st).1.1 i j)
          < calculateTourLength M (hillClimbLoop M K st).1.1 := by
  induction K generalizing st with
  | zero => exact absurd hconv (by rw [hillClimbLoop]; simp)
  | succ k ih =>
      cases hs : hillClimbStep M st with
      | none =>
          have heq : hillClimbLoop M (k + 1) st = (st, true) := by
            rw [hillClimbLoop, hs]
          rw [heq]
          have hf := (hillClimbStep_none_iff M st).mp hs
          intro i j h1 h2 h3
          have := findImprovement_none_valid M st.1 st.2 hf i j h1 h2 h3
          rw [hlen] at this
          exact this
      | some st' =>
          have heq : hillClimbLoop M (k + 1) st = hillClimbLoop M k st' := by
            rw [hillClimbLoop, hs]
          rw [heq] at hconv ⊢
          obtain ⟨i, j, _, hst'⟩ := hillClimbStep_some_char M st st' hs
          exact ih st' (by rw [hst']) hconv

/-- C5: within one hill-climb run (any iteration cap, any distance model)
the current length never increases: the loop result's length is at most
the starting state's length — hence, applied at every suffix of a run,
the per-iteration length sequence is non-increasing — and in particular
the returned length is at most the length of the initial tour. -/
theorem hillClimb_monotone (M : Nat → Nat → α) (K : Nat) :
    (∀ st : Tour × α, (hillClimbLoop M K st).1.2 ≤ st.2)
    ∧ ∀ t : Tour, (hillClimbRun M K t).1.2 ≤ calculateTourLength M t := by
  have main : ∀ (K : Nat) (st : Tour × α), (hillClimbLoop M K st).1.2 ≤ st.2 := by
    intro K
    induction K with
    | zero => intro st; exact le_refl _
    | succ k ih =>
        intro st
        rw [hillClimbLoop]
        cases hs : hillClimbStep M st with
        | none => exact le_refl _
        | some st' =>
            obtain ⟨i, j, hf, hst'⟩ := hillClimbStep_some_char M st st' hs
            have himp := (findImprovement_some_valid M st.1 st.2 i j hf).2.2.2
            have : st'.2 < st.2 := by rw [hst']; exact himp
            exact le_trans (ih st') (le_of_lt this)
  exact ⟨main K, fun t => main K (t, calculateTourLength M t)⟩

end TSP

namespace TSP

variable {α : Type} [LinearOrderedAddCommMonoid α]

/-- A 2-opt swap only rearranges the tour. -/
theorem twoOptSwap_perm (tour : Tour) (i j : Nat) (hij : i ≤ j) :
    (twoOptSwap tour i j).Perm tour := by
  have h1 : tour.take i ++ (tour.take (j + 1)).drop i = tour.take (j + 1) := by
    have : tour.take i = (tour.take (j + 1)).take i := by
      rw [List.take_take, Nat.min_eq_left (by omega)]
    rw [this, List.take_append_drop]
  have h2 : (twoOptSwap tour i j).Perm
      (tour.take i ++ (tour.take (j + 1)).drop i ++ tour.drop (j + 1)) :=
    List.Perm.append
      (List.Perm.append (List.Perm.refl _) (List.reverse_perm _))
      (List.Perm.refl _)
  rw [h1, List.take_append_drop] at h2
  exact h2

/-- A 2-opt swap with `i ≥ 1` keeps the anchor node at position 0. -/
theorem twoOptSwap_head? (tour : Tour) (i j : Nat) (hi : 1 ≤ i)
    (hne : tour ≠ []) : (twoOptSwap tour i j).head? = tour.head? := by
  cases tour with
  | nil => exact absurd rfl hne
  | cons x xs =>
      obtain ⟨m, rfl⟩ : ∃ m, i = m + 1 := ⟨i - 1, by omega⟩
      rw [twoOptSwap, List.take_succ_cons]
      rfl

end TSP

namespace TSP

variable {α : Type} [LinearOrderedAddCommMonoid α]

/-- C6: every tour produced at any stage — the initial random tour and
every tour reachable by the hill-climb loop from a valid state — is a
permutation of `{0, …, N-1}` with node 0 fixed at position 0. -/
theorem tour_perm_invariant (M : Nat → Nat → α)
    (shuffle : List Nat → List Nat) (n : Nat) (hn : 0 < n)
    (hs : ∀ l, (shuffle l).Perm l) (K : Nat) :
    (generateRandomTour shuffle n).Perm (List.range n)
    ∧ (generateRandomTour shuffle n).head? = some 0
    ∧ ∀ st : Tour × α, st.1.Perm (List.range n) → st.1.head? = some 0 →
        ((hillClimbLoop M K st).1.1.Perm (List.range n)
         ∧ (hillClimbLoop M K st).1.1.head? = some 0) := by
  obtain ⟨m, rfl⟩ : ∃ m, n = m + 1 := ⟨n - 1, by omega⟩
  have hrange : List.range (m + 1) = 0 :: List.range' 1 m := by
    rw [List.range_eq_range']
    rfl
  have hgen : generateRandomTour shuffle (m + 1) = 0 :: shuffle (List.range' 1 m) := by
    rw [generateRandomTour, hrange]
  refine ⟨?_, ?_, ?_⟩
  · rw [hgen, hrange]
    exact List.Perm.cons 0 (hs _)
  · rw [hgen]
    rfl
  · intro st
    induction K generalizing st with
    | zero =>
        intro hperm hhead
        exact ⟨hperm, hhead⟩
    | succ k ih =>
        intro hperm hhead
        cases hstep : hillClimbStep M st with
        | none =>
            have heq : hillClimbLoop M (k + 1) st = (st, true) := by
              rw [hillClimbLoop, hstep]
            rw [heq]
            exact ⟨hperm, hhead⟩
        | some st' =>
            have heq : hillClimbLoop M (k + 1) st = hillClimbLoop M k st' := by
              rw [hillClimbLoop, hstep]
            rw [heq]
            obtain ⟨i, j, hf, hst'⟩ := hillClimbStep_some_char M st st' hstep
            obtain ⟨h1, h2, h3, _⟩ := findImprovement_some_valid M st.1 st.2 i j hf
            have hne : st.1 ≠ [] := by
              intro hnil
              rw [hnil] at h3
              simp at h3
            have hperm' : st'.1.Perm (List.range (m + 1)) := by
              rw [hst']
              exact List.Perm.trans (twoOptSwap_perm st.1 i j (by omega)) hperm
            have hhead' : st'.1.head? = some 0 := by
              rw [hst']
              rw [twoOptSwap_head? st.1 i j h1 hne]
              exact hhead
            exact ih st' hperm' hhead'

end TSP

namespace TSP

variable {α : Type} [LinearOrderedAddCommMonoid α]

/-- The strict-improvement fold keeps the first-found minimum: starting
from best `b`, the result is the earliest element of `b :: l` whose
length every earlier element strictly exceeds and no element undercuts. -/
theorem foldl_shotgunStep_char :
    ∀ (l : List (Tour × α)) (b : Tour × α),
      ∃ c pre post, l.foldl shotgunStep (some b) = some c
        ∧ b :: l = pre ++ c :: post
        ∧ (∀ r ∈ pre, c.2 < r.2)
        ∧ (∀ r ∈ b :: l, c.2 ≤ r.2) := by
  intro l
  induction l with
  | nil =>
      intro b
      refine ⟨b, [], [], rfl, rfl, by simp, ?_⟩
      intro r hr
      rw [List.mem_singleton.mp hr]
  | cons r l ih =>
      intro b
      by_cases hlt : r.2 < b.2
      · have hstep : shotgunStep (some b) r = some r := by
          rw [shotgunStep, if_pos hlt]
        obtain ⟨c, pre, post, h1, h2, h3, h4⟩ := ih r
        refine ⟨c, b :: pre, post, ?_, ?_, ?_, ?_⟩
        · rw [List.foldl_cons, hstep]
          exact h1
        · rw [List.cons_append, ← h2]
        · intro x hx
          rcases List.mem_cons.mp hx with hx | hx
          · subst hx
            exact lt_of_le_of_lt (h4 r (List.mem_cons_self _ _)) hlt
          · exact h3 x hx
        · intro x hx
          rcases List.mem_cons.mp hx with hx | hx
          · subst hx
            exact le_of_lt (lt_of_le_of_lt (h4 r (List.mem_cons_self _ _)) hlt)
          · exact h4 x hx
      · have hstep : shotgunStep (some b) r = some b := by
          rw [shotgunStep, if_neg hlt]
        obtain ⟨c, pre, post, h1, h2, h3, h4⟩ := ih b
        have hfold : (r :: l).foldl shotgunStep (some b) = some c := by
          rw [List.foldl_cons, hstep]
          exact h1
        cases pre with
        | nil =>
            rw [List.nil_append] at h2
            injection h2 with e1 e2
            subst e2
            rw [← e1] at h4 hfold
            refine ⟨b, [], r :: l, hfold, rfl, by simp, ?_⟩
            intro x hx
            rcases List.mem_cons.mp hx with hx | hx
            · rw [hx]
            · rcases List.mem_cons.mp hx with hx | hx
              · rw [hx]
                exact le_of_not_lt hlt
              · exact h4 x (List.mem_cons_of_mem _ hx)
        | cons b2 pre2 =>
            rw [List.cons_append] at h2
            injection h2 with e1 e2
            subst e1
            refine ⟨c, b :: r :: pre2, post, hfold, ?_, ?_, ?_⟩
            · rw [List.cons_append, List.cons_append, ← e2]
            · intro x hx
              rcases List.mem_cons.mp hx with hx | hx
              · rw [hx]
                exact h3 b (List.mem_cons_self _ _)
              · rcases List.mem_cons.mp hx with hx | hx
                · rw [hx]
                  exact lt_of_lt_of_le (h3 b (List.mem_cons_self _ _))
                    (le_of_not_lt hlt)
                · exact h3 x (List.mem_cons_of_mem _ hx)
            · intro x hx
              rcases List.mem_cons.mp hx with hx | hx
              · rw [hx]
                exact h4 b (List.mem_cons_self _ _)
              · rcases List.mem_cons.mp hx with hx | hx
                · rw [hx]
                  exact le_trans (le_of_lt (h3 b (List.mem_cons_self _ _)))
                    (le_of_not_lt hlt)
                · exact h4 x (List.mem_cons_of_mem _ hx)
end TSP

namespace TSP

variable {α : Type} [LinearOrderedAddCommMonoid α]

/-- C7: over R ≥ 1 hill-climb runs the shotgun reduction returns a run
result whose length is minimal among all runs, and every run that comes
before the returned one in run order is strictly worse — a new best is
accepted only on strict improvement, so ties keep the first-found best. -/
theorem shotgun_first_min (M : Nat → Nat → α) (tours : Nat → Tour) (K R : Nat)
    (hR : 1 ≤ R) :
    ∃ b pre post, shotgunHillClimbing M tours K R = some b
      ∧ runResults M tours K R = pre ++ b :: post
      ∧ (∀ r ∈ pre, b.2 < r.2)
      ∧ ∀ r ∈ runResults M tours K R, b.2 ≤ r.2 := by
  obtain ⟨m, rfl⟩ : ∃ m, R = m + 1 := ⟨R - 1, by omega⟩
  have hrr : runResults M tours K (m + 1)
      = (hillClimbRun M K (tours 0)).1
        :: ((List.range m).map Nat.succ).map
            (fun r => (hillClimbRun M K (tours r)).1) := by
    rw [runResults, List.range_succ_eq_map, List.map_cons, List.map_map]
  obtain ⟨c, pre, post, h1, h2, h3, h4⟩ :=
    foldl_shotgunStep_char
      (((List.range m).map Nat.succ).map (fun r => (hillClimbRun M K (tours r)).1))
      (hillClimbRun M K (tours 0)).1
  refine ⟨c, pre, post, ?_, ?_, h3, ?_⟩
  · rw [shotgunHillClimbing, hrr, List.foldl_cons]
    exact h1
  · rw [hrr, h2]
  · rw [hrr]
    exact h4

theorem foldl_shotgunStep_mem :
    ∀ (l : List (Tour × α)) (acc : Option (Tour × α)) (b : Tour × α),
      l.foldl shotgunStep acc = some b → acc = some b ∨ b ∈ l := by
  intro l
  induction l with
  | nil => intro acc b h; exact Or.inl h
  | cons r l ih =>
      intro acc b h
      rw [List.foldl_cons] at h
      rcases ih (shotgunStep acc r) b h with h' | h'
      · cases acc with
        | none =>
            rw [shotgunStep] at h'
            injection h' with h'
            exact Or.inr (h' ▸ List.mem_cons_self _ _)
        | some a =>
            rw [shotgunStep] at h'
            by_cases hlt : r.2 < a.2
            · rw [if_pos hlt] at h'
              injection h' with h'
              exact Or.inr (h' ▸ List.mem_cons_self _ _)
            · rw [if_neg hlt] at h'
              exact Or.inl h'
      · exact Or.inr (List.mem_cons_of_mem _ h')

/-- C10: the (tour, length) pair returned by one hill-climb run is
internally consistent — the length component equals `calculateTourLength`
of the tour component — and consequently any best solution returned by
the shotgun reduction satisfies the same equation, so the length
recomputed from the best tour at output time equals the internal best
length. -/
theorem result_length_consistent (M : Nat → Nat → α) (K : Nat) :
    (∀ t : Tour, (hillClimbRun M K t).1.2
        = calculateTourLength M (hillClimbRun M K t).1.1)
    ∧ ∀ (tours : Nat → Tour) (R : Nat) (b : Tour × α),
        shotgunHillClimbing M tours K R = some b →
        b.2 = calculateTourLength M b.1 := by
  have hrun : ∀ t : Tour, (hillClimbRun M K t).1.2
      = calculateTourLength M (hillClimbRun M K t).1.1 :=
    fun t => hillClimbLoop_consistent M K (t, calculateTourLength M t) rfl
  refine ⟨hrun, fun tours R b h => ?_⟩
  rcases foldl_shotgunStep_mem (runResults M tours K R) none b h with h' | h'
  · exact absurd h' (by simp)
  · rw [runResults, List.mem_map] at h'
    obtain ⟨r, _, hr⟩ := h'
    rw [← hr]
    exact hrun (tours r)

theorem candidatePairs_small (n : Nat) (hn : n ≤ 2) : candidatePairs n = [] := by
  rw [candidatePairs]
  have h2 : n - 2 = 0 := by omega
  rw [h2]
  rfl

theorem foldl_shotgunStep_const (b : Tour × α) :
    ∀ l : List (Tour × α), (∀ p ∈ l, p = b) →
      l.foldl shotgunStep (some b) = some b := by
  intro l
  induction l with
  | nil => intro _; rfl
  | cons r l ih =>
      intro h
      rw [List.foldl_cons, h r (List.mem_cons_self _ _), shotgunStep,
        if_neg (lt_irrefl b.2)]
      exact ih (fun p hp => h p (List.mem_cons_of_mem _ hp))

/-- C9 (amended): for a single-node instance the trivial tour [0] has
length `M 0 0` — the single wrap-around self-loop edge — and solving the
1×1 matrix [[0]] returns tour [0] with length 0 for every
restartCount ≥ 1 and every iterationCap ≥ 0. -/
theorem singleNode_solve (M : Nat → Nat → α) (hM : M 0 0 = 0)
    (tours : Nat → Tour) (htours : ∀ r, (tours r).Perm (List.range 1))
    (K R : Nat) (hR : 1 ≤ R) :
    (∀ M2 : Nat → Nat → α, calculateTourLength M2 [0] = M2 0 0)
    ∧ shotgunHillClimbing M tours K R = some ([0], 0) := by
  have hlen1 : ∀ M2 : Nat → Nat → α, calculateTourLength M2 [0] = M2 0 0 := by
    intro M2
    rw [calculateTourLength]
    simp
  have htour0 : ∀ r, tours r = [0] := by
    intro r
    have h := htours r
    have h1 : List.range 1 = [0] := rfl
    rw [h1, List.perm_singleton] at h
    exact h
  have hrun : ∀ t : Tour, t = [0] → (hillClimbRun M K t).1 = ([0], 0) := by
    intro t ht
    subst ht
    have hcalc : calculateTourLength M [0] = 0 := by rw [hlen1 M, hM]
    rw [hillClimbRun, hcalc]
    have hstep : hillClimbStep M (([0] : Tour), (0 : α)) = none := by
      rw [hillClimbStep, findImprovement]
      have : candidatePairs ([0] : Tour).length = [] :=
        candidatePairs_small _ (by simp)
      rw [this]
      rfl
    cases K with
    | zero => rfl
    | succ k =>
        rw [hillClimbLoop, hstep]
  refine ⟨hlen1, ?_⟩
  obtain ⟨m, rfl⟩ : ∃ m, R = m + 1 := ⟨R - 1, by omega⟩
  have hrr : runResults M tours K (m + 1)
      = ([0], 0) :: ((List.range m).map Nat.succ).map
          (fun r => (hillClimbRun M K (tours r)).1) := by
    rw [runResults, List.range_succ_eq_map, List.map_cons, List.map_map]
    rw [hrun (tours 0) (htour0 0)]
  rw [shotgunHillClimbing, hrr, List.foldl_cons]
  have hstep0 : shotgunStep (none : Option (Tour × α)) (([0], 0) : Tour × α)
      = some ([0], 0) := rfl
  rw [hstep0]
  apply foldl_shotgunStep_const
  intro p hp
  rw [List.mem_map] at hp
  obtain ⟨r, _, hr⟩ := hp
  rw [← hr, hrun _ (htour0 _)]

/-- C8 (amended): when the parallel solver runs on a single thread, its
result is exactly the sequential solver's result (hence equal length):
thread 0 seeds its generator with `baseSeed + 0` and folds all restarts
in run order, and the critical-section merge of its single local best is
the identity. -/
theorem parallel_one_thread_eq_sequential (M : Nat → Nat → α)
    (streams : Nat → Nat → Tour) (seed K R : Nat) :
    shotgunHillClimbingParallel M streams seed K [R]
      = shotgunHillClimbing M (streams seed) K R := by
  rw [shotgunHillClimbingParallel]
  have h1 : ([R] : List Nat).length = 1 := rfl
  rw [h1]
  have h2 : List.range 1 = [0] := rfl
  rw [h2, List.map_cons]
  have h3 : ([R] : List Nat).getD 0 0 = R := rfl
  rw [List.map_nil, h3]
  have h4 : threadLocalBest M streams seed K 0 R
      = shotgunHillClimbing M (streams seed) K R := by
    rw [threadLocalBest, shotgunHillClimbing, runResults, Nat.add_zero]
  rw [h4]
  cases h : shotgunHillClimbing M (streams seed) K R with
  | none => rfl
  | some b => rfl

end TSP

namespace TSP

/-- C8 counterexample: same model, iteration cap 0, 2 restarts, seed 7 —
under an admissible random-stream behavior the sequential solver finds
best length 3 while the two-thread parallel solver (one restart per
thread) finds best length 30, because thread 1 draws its tours from a
generator seeded 7 + 1 instead of continuing the sequential stream of
the generator seeded 7. -/
theorem parallel_two_threads_differ :
    Option.map Prod.snd (shotgunHillClimbing exMatrix (exStreams 7) 0 2)
      ≠ Option.map Prod.snd
          (shotgunHillClimbingParallel exMatrix exStreams 7 0 [1, 1]) := by
  decide

/-- C9 counterexample: for the single-node instance [[5]] the code's
length of the trivial tour [0] is the self-loop cost 5, not 0. -/
theorem singleNode_tourLength_nonzero :
    ¬ calculateTourLength (fun _ _ => (5 : ℤ)) [0] = 0 := by
  decide

/-- Concrete instance of C1 on `exMatrix` with tour `[0, 1, 2]`. -/
theorem calculateTourLength_spec_witness :
    (([0, 1, 2] : Tour) ≠ [])
    ∧ (calculateTourLength exMatrix [0, 1, 2]
        = ∑ k ∈ Finset.range ([0, 1, 2] : Tour).length,
            exMatrix (([0, 1, 2] : Tour).getD k 0)
              (([0, 1, 2] : Tour).getD ((k + 1) % ([0, 1, 2] : Tour).length) 0)
       ∧ calculateTourLength exMatrix [0, 1, 2]
        = (∑ k ∈ Finset.range (([0, 1, 2] : Tour).length - 1),
            exMatrix (([0, 1, 2] : Tour).getD k 0)
              (([0, 1, 2] : Tour).getD (k + 1) 0))
          + exMatrix (([0, 1, 2] : Tour).getD (([0, 1, 2] : Tour).length - 1) 0)
              (([0, 1, 2] : Tour).getD 0 0)) :=
  ⟨by decide, calculateTourLength_spec exMatrix [0, 1, 2] (by decide)⟩

/-- Concrete instance of C2 on tour `[0, 1, 2, 3]` with `i = 1`, `j = 2`. -/
theorem twoOptSwap_spec_witness :
    (1 ≤ 1 ∧ 1 < 2 ∧ 2 < ([0, 1, 2, 3] : Tour).length)
    ∧ (twoOptSwap [0, 1, 2, 3] 1 2).getD 1 0 = ([0, 1, 2, 3] : Tour).getD 2 0 :=
  ⟨⟨by decide, by decide, by decide⟩,
    (twoOptSwap_spec [0, 1, 2, 3] 1 2 (by decide) (by decide)
      (by decide)).2.2.2.2.1⟩

/-- Concrete instance of C4: on the constant matrix every tour has equal
length, so the run converges after one scan and no move improves. -/
theorem hillClimb_converged_localOpt_witness :
    ((3 : ℤ) = calculateTourLength (fun _ _ => (1 : ℤ)) [0, 1, 2])
    ∧ (hillClimbLoop (fun _ _ => (1 : ℤ)) 1 (([0, 1, 2] : Tour), (3 : ℤ))).2
        = true
    ∧ ¬ calculateTourLength (fun _ _ => (1 : ℤ))
          (twoOptSwap
            (hillClimbLoop (fun _ _ => (1 : ℤ)) 1
              (([0, 1, 2] : Tour), (3 : ℤ))).1.1 1 2)
        < calculateTourLength (fun _ _ => (1 : ℤ))
            (hillClimbLoop (fun _ _ => (1 : ℤ)) 1
              (([0, 1, 2] : Tour), (3 : ℤ))).1.1 :=
  ⟨by decide, by decide,
    hillClimb_converged_localOpt (fun _ _ => (1 : ℤ)) 1 ([0, 1, 2], 3)
      (by decide) (by decide) 1 2 (by decide) (by decide) (by decide)⟩

/-- Concrete instance of C6 with the identity shuffle and a run on
`exMatrix` from the tour `[0, 2, 1]`. -/
theorem tour_perm_invariant_witness :
    (generateRandomTour id 3).Perm (List.range 3)
    ∧ (generateRandomTour id 3).head? = some 0
    ∧ ((hillClimbLoop exMatrix 5 (([0, 2, 1] : Tour), (30 : ℤ))).1.1.Perm
          (List.range 3)
       ∧ (hillClimbLoop exMatrix 5 (([0, 2, 1] : Tour), (30 : ℤ))).1.1.head?
          = some 0) := by
  have h := tour_perm_invariant exMatrix id 3 (by decide)
    (fun l => List.Perm.refl l) 5
  exact ⟨h.1, h.2.1, h.2.2 ([0, 2, 1], 30) (by decide) rfl⟩

/-- Concrete instance of C7 with a single restart on `exMatrix`. -/
theorem shotgun_first_min_witness :
    ∃ b pre post,
      shotgunHillClimbing exMatrix (fun _ => [0, 2, 1]) 0 1 = some b
      ∧ runResults exMatrix (fun _ => [0, 2, 1]) 0 1 = pre ++ b :: post
      ∧ (∀ r ∈ pre, b.2 < r.2)
      ∧ ∀ r ∈ runResults exMatrix (fun _ => [0, 2, 1]) 0 1, b.2 ≤ r.2 :=
  shotgun_first_min exMatrix (fun _ => [0, 2, 1]) 0 1 (by decide)

/-- Concrete instance of C9 (amended) on the 1×1 matrix [[0]] with
iteration cap 3 and 2 restarts. -/
theorem singleNode_solve_witness :
    (∀ M2 : Nat → Nat → ℤ, calculateTourLength M2 [0] = M2 0 0)
    ∧ shotgunHillClimbing (fun _ _ => (0 : ℤ)) (fun _ => [0]) 3 2
        = some ([0], 0) :=
  by
    have hp : (([0] : Tour)).Perm (List.range 1) := by decide
    exact singleNode_solve (fun _ _ => (0 : ℤ)) rfl (fun _ => [0])
      (fun _ => hp) 3 2 (by decide)

end TSP
